import Mathlib

/-!
Verification of the haskelite-runtime lazy-evaluation core (src/builtins.rs).

The Rust core is a call-by-need graph reducer:
  * `Node` is either an immediate `Int(i64)` or `ThunkRef(Rc<RefCell<Thunk>>)`,
    a shared mutable reference to a thunk cell;
  * `Thunk` is `UThunk(Box<dyn ThunkEval>)` (pending) or `EThunk(Node)` (done);
  * `Node::eval` first runs `Node::reduce` (which, on a pending cell, invokes
    the deferred computation and overwrites the cell with `EThunk(result)`),
    then reads the cell and returns the stored node;
  * the only implementors of `ThunkEval` are the four structs generated by the
    `bin_thunk!` form (AddThunk/SubThunk/DivThunk/MulThunk), each capturing two
    operand nodes; their `eval` is `eval_add`/`eval_sub`/`eval_div`/`eval_mul`,
    all instances of the `bin_arith!` form: force left operand, force right
    operand, require both to be `Int`, apply the native i64 operator.

Embedding choices:
  * The `Rc<RefCell<Thunk>>` store is made explicit as a heap, a list of thunk
    cells addressed by position; `Node::ThunkRef` carries the address.
    Cloning a Rust `Node` copies the scalar or bumps the reference count, so a
    clone is literally the same value here (same address).
  * `Box<dyn ThunkEval>` is embedded as `BinThunk` (operation tag plus the two
    captured operand nodes), since the four `bin_thunk!` structs are the only
    implementors in the program.
  * Rust panics become `Fault` values in an `Outcome`; i64 arithmetic is `Int`
    with explicit wrapping into the 64-bit two's-complement range, `/` is
    truncated division with the native division-by-zero / MIN-divided-by-minus-
    one faults.
  * Evaluation is given fuel (`Node.eval` recurses through the heap, which is
    not structurally decreasing); running out of fuel is a distinct
    `Outcome.outOfFuel`, never confused with a fault or a result.
  * Evaluation also returns a trace of events — entering `eval` on a node
    (`force`), invoking the deferred computation of a cell (`invoke`), applying
    the native operator (`apply`) — which makes laziness, memoization ("the
    deferred computation is invoked at most once") and the left-before-right
    forcing order stateable.
-/

namespace Builtins

/-- Tag for the four arithmetic builtins generated by `bin_thunk!`. -/
inductive BinOp
  | add
  | sub
  | div
  | mul
deriving DecidableEq

/-- Mirror of the Rust `Node`: an immediate integer value, or a shared
reference to a thunk cell, here an address into the explicit heap. -/
inductive Node
  | Int : Int → Node
  | ThunkRef : Nat → Node
deriving DecidableEq

/-- Mirror of the `bin_thunk!`-generated structs (AddThunk, SubThunk, DivThunk,
MulThunk): the only `ThunkEval` implementors in the program, each capturing the
two operand nodes of one binary arithmetic operation. -/
structure BinThunk where
  op : BinOp
  nl : Node
  nr : Node
deriving DecidableEq

/-- Mirror of the Rust `Thunk`: a pending deferred computation, or the
memoized result node. -/
inductive Thunk
  | UThunk : BinThunk → Thunk
  | EThunk : Node → Thunk
deriving DecidableEq

/-- The explicit store of thunk cells standing for the `Rc<RefCell<Thunk>>`
graph; a `Node.ThunkRef` holds an index into it. -/
abbrev Heap := List Thunk

/-- Reads the cell at address `a` (the `borrow` of the `RefCell`).
Out-of-range reads return `none`; they never occur in configurations built by
the public constructors, where every address points at an allocated cell. -/
def look : Heap → Nat → Option Thunk
  | [], _ => none
  | t :: _, 0 => some t
  | _ :: h, a + 1 => look h a

/-- Overwrites the cell at address `a` (the `borrow_mut` write of the
`RefCell`); out-of-range writes are a no-op (they never occur). -/
def write : Heap → Nat → Thunk → Heap
  | [], _, _ => []
  | _ :: h, 0, t => t :: h
  | x :: h, a + 1, t => x :: write h a t

/-- The Rust panics of the core, as inspectable fault values. -/
inductive Fault
  | typeMismatchLeft : Node → Fault
  | typeMismatchRight : Node → Fault
  | divisionByZero : Fault
  | divisionOverflow : Fault
  | evalPending : Fault
  | badAddr : Fault
  | displayThunk : Nat → Fault
deriving DecidableEq

/-- Result channel of evaluation: a produced node, a fault (Rust panic), or
exhaustion of the embedding's fuel (a model artifact, not a program outcome). -/
inductive Outcome
  | ok : Node → Outcome
  | fault : Fault → Outcome
  | outOfFuel : Outcome
deriving DecidableEq

/-- Instrumentation events recorded during evaluation: `force n` marks entry
into `Node::eval` on `n`; `invoke a` marks the deferred computation of the cell
at address `a` being invoked; `apply op a b` marks the native operator being
applied to two forced integers. -/
inductive Event
  | force : Node → Event
  | invoke : Nat → Event
  | apply : BinOp → Int → Int → Event
deriving DecidableEq

/-- Result of `Node.eval`: outcome, the heap after any memoization writes, and
the recorded event trace. -/
structure EvalResult where
  out : Outcome
  heap : Heap
  trace : List Event
deriving DecidableEq

/-- Status part of the result of `Node.reduce` (Rust `reduce` returns unit;
faults of the invoked computation abort it). -/
inductive RedOut
  | ok : RedOut
  | fault : Fault → RedOut
  | outOfFuel : RedOut
deriving DecidableEq

/-- Result of `Node.reduce`: status, heap after the memoization write, trace. -/
structure RedResult where
  st : RedOut
  heap : Heap
  trace : List Event
deriving DecidableEq

/-- Smallest i64 value. -/
def i64Min : Int := -(2 ^ 63)

/-- Largest i64 value. -/
def i64Max : Int := 2 ^ 63 - 1

/-- Reduction of an integer into the 64-bit two's-complement range, the value
the native i64 operation produces when the mathematical result overflows. -/
def wrap64 (x : Int) : Int := Int.emod (x + 2 ^ 63) (2 ^ 64) - 2 ^ 63

/-- The native i64 operator applied by `bin_arith!` for each builtin:
`+`, `-`, `*` reduced into the i64 range, and `/` as truncated division with
the native faults (division by zero; overflow on `i64::MIN / -1`). -/
def applyOp : BinOp → Int → Int → Except Fault Int
  | BinOp.add, a, b => Except.ok (wrap64 (a + b))
  | BinOp.sub, a, b => Except.ok (wrap64 (a - b))
  | BinOp.mul, a, b => Except.ok (wrap64 (a * b))
  | BinOp.div, a, b =>
    if b = 0 then Except.error Fault.divisionByZero
    else if a = i64Min ∧ b = -1 then Except.error Fault.divisionOverflow
    else Except.ok (Int.tdiv a b)

/-- Mirror of Rust `Node::eval` with the `reduce` step and — on a pending cell
— the `bin_arith!` body of the invoked deferred computation inlined (Rust
separates them into `Node::reduce` and `eval_add`/…; `Node.reduce` and
`binArith` below restate that factoring as derived definitions).  For a value
node, `reduce` is a no-op and the node is returned.  For a thunk reference:
if the cell is done, its stored node is returned; if pending, the captured
left operand is forced, then the right operand, both results are required to
be `Int`, the native operator is applied, the cell is overwritten with the
memoized result (`*t_mut = Thunk::EThunk(eval.eval())`), and — as in the Rust
source, which re-inspects the cell after `reduce` — the cell is read back, a
still-pending cell being the `panic!()` fault `evalPending`.  The first fuel
argument bounds the recursion depth through the heap. -/
def Node.eval : Nat → Node → Heap → EvalResult
  | 0, _, h => ⟨Outcome.outOfFuel, h, []⟩
  | _ + 1, Node.Int i, h => ⟨Outcome.ok (Node.Int i), h, [Event.force (Node.Int i)]⟩
  | f + 1, Node.ThunkRef a, h =>
    match look h a with
    | none => ⟨Outcome.fault Fault.badAddr, h, [Event.force (Node.ThunkRef a)]⟩
    | some (Thunk.EThunk v) => ⟨Outcome.ok v, h, [Event.force (Node.ThunkRef a)]⟩
    | some (Thunk.UThunk bt) =>
      match Node.eval f bt.nl h with
      | ⟨Outcome.fault e, h1, t1⟩ =>
        ⟨Outcome.fault e, h1, Event.force (Node.ThunkRef a) :: Event.invoke a :: t1⟩
      | ⟨Outcome.outOfFuel, h1, t1⟩ =>
        ⟨Outcome.outOfFuel, h1, Event.force (Node.ThunkRef a) :: Event.invoke a :: t1⟩
      | ⟨Outcome.ok vl, h1, t1⟩ =>
        match Node.eval f bt.nr h1 with
        | ⟨Outcome.fault e, h2, t2⟩ =>
          ⟨Outcome.fault e, h2, Event.force (Node.ThunkRef a) :: Event.invoke a :: (t1 ++ t2)⟩
        | ⟨Outcome.outOfFuel, h2, t2⟩ =>
          ⟨Outcome.outOfFuel, h2, Event.force (Node.ThunkRef a) :: Event.invoke a :: (t1 ++ t2)⟩
        | ⟨Outcome.ok vr, h2, t2⟩ =>
          match vl with
          | Node.Int il =>
            match vr with
            | Node.Int ir =>
              match applyOp bt.op il ir with
              | Except.error e =>
                ⟨Outcome.fault e, h2,
                  Event.force (Node.ThunkRef a) :: Event.invoke a ::
                    (t1 ++ t2 ++ [Event.apply bt.op il ir])⟩
              | Except.ok c =>
                match look (write h2 a (Thunk.EThunk (Node.Int c))) a with
                | some (Thunk.EThunk w) =>
                  ⟨Outcome.ok w, write h2 a (Thunk.EThunk (Node.Int c)),
                    Event.force (Node.ThunkRef a) :: Event.invoke a ::
                      (t1 ++ t2 ++ [Event.apply bt.op il ir])⟩
                | some (Thunk.UThunk _) =>
                  ⟨Outcome.fault Fault.evalPending, write h2 a (Thunk.EThunk (Node.Int c)),
                    Event.force (Node.ThunkRef a) :: Event.invoke a ::
                      (t1 ++ t2 ++ [Event.apply bt.op il ir])⟩
                | none =>
                  ⟨Outcome.fault Fault.badAddr, write h2 a (Thunk.EThunk (Node.Int c)),
                    Event.force (Node.ThunkRef a) :: Event.invoke a ::
                      (t1 ++ t2 ++ [Event.apply bt.op il ir])⟩
            | _ =>
              ⟨Outcome.fault (Fault.typeMismatchRight vr), h2,
                Event.force (Node.ThunkRef a) :: Event.invoke a :: (t1 ++ t2)⟩
          | _ =>
            ⟨Outcome.fault (Fault.typeMismatchLeft vl), h2,
              Event.force (Node.ThunkRef a) :: Event.invoke a :: (t1 ++ t2)⟩

/-- Mirror of the `bin_arith!` form shared by `eval_add`/`eval_sub`/
`eval_div`/`eval_mul`: force the left operand, force the right operand, require
both to be the integer variant (checking the left one first), then apply the
native operator; a non-integer operand is the corresponding panic, identifying
the offending side and the observed node. -/
def binArith (f : Nat) (op : BinOp) (nl nr : Node) (h : Heap) : EvalResult :=
  match Node.eval f nl h with
  | ⟨Outcome.fault e, h1, t1⟩ => ⟨Outcome.fault e, h1, t1⟩
  | ⟨Outcome.outOfFuel, h1, t1⟩ => ⟨Outcome.outOfFuel, h1, t1⟩
  | ⟨Outcome.ok vl, h1, t1⟩ =>
    match Node.eval f nr h1 with
    | ⟨Outcome.fault e, h2, t2⟩ => ⟨Outcome.fault e, h2, t1 ++ t2⟩
    | ⟨Outcome.outOfFuel, h2, t2⟩ => ⟨Outcome.outOfFuel, h2, t1 ++ t2⟩
    | ⟨Outcome.ok vr, h2, t2⟩ =>
      match vl with
      | Node.Int il =>
        match vr with
        | Node.Int ir =>
          match applyOp op il ir with
          | Except.ok c => ⟨Outcome.ok (Node.Int c), h2, t1 ++ t2 ++ [Event.apply op il ir]⟩
          | Except.error e => ⟨Outcome.fault e, h2, t1 ++ t2 ++ [Event.apply op il ir]⟩
        | _ => ⟨Outcome.fault (Fault.typeMismatchRight vr), h2, t1 ++ t2⟩
      | _ => ⟨Outcome.fault (Fault.typeMismatchLeft vl), h2, t1 ++ t2⟩

/-- The `eval` of the `bin_thunk!` struct AddThunk, i.e. Rust `eval_add`. -/
def eval_add (f : Nat) (nl nr : Node) (h : Heap) : EvalResult := binArith f BinOp.add nl nr h

/-- The `eval` of the `bin_thunk!` struct SubThunk, i.e. Rust `eval_sub`. -/
def eval_sub (f : Nat) (nl nr : Node) (h : Heap) : EvalResult := binArith f BinOp.sub nl nr h

/-- The `eval` of the `bin_thunk!` struct DivThunk, i.e. Rust `eval_div`. -/
def eval_div (f : Nat) (nl nr : Node) (h : Heap) : EvalResult := binArith f BinOp.div nl nr h

/-- The `eval` of the `bin_thunk!` struct MulThunk, i.e. Rust `eval_mul`. -/
def eval_mul (f : Nat) (nl nr : Node) (h : Heap) : EvalResult := binArith f BinOp.mul nl nr h

/-- Mirror of Rust `Node::reduce` as a derived definition: a no-op on a value
node or a done cell; on a pending cell, invoke the deferred computation
(`binArith`, covering all four `ThunkEval` implementors) and overwrite the cell
with `EThunk` of its result. -/
def Node.reduce (f : Nat) (n : Node) (h : Heap) : RedResult :=
  match n with
  | Node.Int _ => ⟨RedOut.ok, h, []⟩
  | Node.ThunkRef a =>
    match look h a with
    | none => ⟨RedOut.fault Fault.badAddr, h, []⟩
    | some (Thunk.EThunk _) => ⟨RedOut.ok, h, []⟩
    | some (Thunk.UThunk bt) =>
      match binArith f bt.op bt.nl bt.nr h with
      | ⟨Outcome.ok v, h1, t1⟩ => ⟨RedOut.ok, write h1 a (Thunk.EThunk v), Event.invoke a :: t1⟩
      | ⟨Outcome.fault e, h1, t1⟩ => ⟨RedOut.fault e, h1, Event.invoke a :: t1⟩
      | ⟨Outcome.outOfFuel, h1, t1⟩ => ⟨RedOut.outOfFuel, h1, Event.invoke a :: t1⟩

/-- Mirror of Rust `int`: builds an immediate integer node. -/
def int (i : Int) : Node := Node.Int i

/-- Mirror of Rust `thunk`: allocates a fresh pending cell holding the given
deferred computation and returns a node referencing it. -/
def thunk (bt : BinThunk) (h : Heap) : Node × Heap :=
  (Node.ThunkRef h.length, h ++ [Thunk.UThunk bt])

/-- Mirror of the Rust constructor `add` generated by `bin_thunk!`. -/
def add (nl nr : Node) (h : Heap) : Node × Heap := thunk ⟨BinOp.add, nl, nr⟩ h

/-- Mirror of the Rust constructor `sub` generated by `bin_thunk!`. -/
def sub (nl nr : Node) (h : Heap) : Node × Heap := thunk ⟨BinOp.sub, nl, nr⟩ h

/-- Mirror of the Rust constructor `div` generated by `bin_thunk!`. -/
def div (nl nr : Node) (h : Heap) : Node × Heap := thunk ⟨BinOp.div, nl, nr⟩ h

/-- Mirror of the Rust constructor `mul` generated by `bin_thunk!`. -/
def mul (nl nr : Node) (h : Heap) : Node × Heap := thunk ⟨BinOp.mul, nl, nr⟩ h

/-- The four constructors under one index, for statements quantifying over the
operation. -/
def binCtor : BinOp → Node → Node → Heap → Node × Heap
  | BinOp.add => add
  | BinOp.sub => sub
  | BinOp.div => div
  | BinOp.mul => mul

/-- Mirror of the `fmt::Display` impl for `Node`: renders the scalar of an
`Int` node and panics (`unreachable!("Asked to display thunk: …")`) on any
thunk reference; the fault records the offending address.  The heap parameter
is present because the Rust code borrows the cell (only to format the panic
message); the match never inspects it. -/
def displayNode (n : Node) (_h : Heap) : Except Fault String :=
  match n with
  | Node.Int i => Except.ok (toString i)
  | Node.ThunkRef a => Except.error (Fault.displayThunk a)

/-- Mirror of the `fmt::Debug` impl for `Node` (and, through the cell it
borrows, for `Thunk`): an `Int` node renders as `Int(i)`, a reference to a
pending cell as `#[UNEVALED]`, a reference to a done cell as `#[…]` around the
debug form of the stored node.  Debug rendering reads the heap but never
writes it and never invokes a deferred computation; the fuel bounds the
recursion through done cells, `none` meaning exhaustion only. -/
def debugNode : Nat → Node → Heap → Option String
  | _, Node.Int i, _ => some ("Int(" ++ toString i ++ ")")
  | 0, Node.ThunkRef _, _ => none
  | f + 1, Node.ThunkRef a, h =>
    match look h a with
    | none => none
    | some (Thunk.UThunk _) => some "#[UNEVALED]"
    | some (Thunk.EThunk v) => (debugNode f v h).map (fun s => "#[" ++ s ++ "]")

/-- Mirror of the `fmt::Debug` impl for `Thunk` itself. -/
def debugThunk (f : Nat) (t : Thunk) (h : Heap) : Option String :=
  match t with
  | Thunk.UThunk _ => some "#[UNEVALED]"
  | Thunk.EThunk v => (debugNode f v h).map (fun s => "#[" ++ s ++ "]")

/-- Discriminates the integer variant, the type check of `bin_arith!`. -/
def Node.isInt : Node → Bool
  | Node.Int _ => true
  | Node.ThunkRef _ => false

/-- Well-formedness of a heap: every done cell stores an immediate integer
node.  Every heap reachable from constructor-built configurations satisfies
this, since the only writes are `EThunk` of a `bin_arith!` result, always an
`Int` node. -/
def WF (h : Heap) : Prop :=
  ∀ a n, look h a = some (Thunk.EThunk n) → ∃ i, n = Node.Int i

/-- Executable sufficient check for `WF`, for concrete heaps. -/
def WFb (h : Heap) : Bool :=
  h.all fun t =>
    match t with
    | Thunk.EThunk (Node.ThunkRef _) => false
    | _ => true

/-- Validity of a node against a heap: any reference points at an allocated
cell (automatic for the Rust `Rc`, explicit in the address model). -/
def validNode (h : Heap) : Node → Prop
  | Node.Int _ => True
  | Node.ThunkRef a => a < h.length

/-- The evolution a single cell may undergo across an operation of the core:
it is untouched, or it goes from pending to done holding an integer result.
This is the `Pending → Done` single-transition discipline. -/
def Step (h h' : Heap) : Prop :=
  h.length = h'.length ∧
    ∀ a : Nat,
      look h a = look h' a ∨
        ∃ bt i, look h a = some (Thunk.UThunk bt) ∧ look h' a = some (Thunk.EThunk (Node.Int i))

/-- The pointwise form of `Step` at one address: across an operation, the cell
at `a` is either untouched or goes from pending to done with an integer
result. -/
def heapEvolve (h h' : Heap) (a : Nat) : Prop :=
  look h a = look h' a ∨
    ∃ bt i, look h a = some (Thunk.UThunk bt) ∧ look h' a = some (Thunk.EThunk (Node.Int i))

/-! Basic facts about the explicit heap. -/

theorem look_lt_length {h : Heap} {a : Nat} {t : Thunk} (hl : look h a = some t) :
    a < h.length := by
  induction h generalizing a with
  | nil => simp [look] at hl
  | cons x h ih =>
    cases a with
    | zero => simp
    | succ a =>
      simp only [look] at hl
      have := ih hl
      simp only [List.length_cons]
      omega

theorem lt_length_look {h : Heap} {a : Nat} (ha : a < h.length) :
    ∃ t, look h a = some t := by
  induction h generalizing a with
  | nil => simp [List.length] at ha
  | cons x h ih =>
    cases a with
    | zero => exact ⟨x, rfl⟩
    | succ a =>
      simp only [List.length_cons, Nat.succ_lt_succ_iff] at ha
      exact ih ha

theorem length_write (h : Heap) (a : Nat) (t : Thunk) :
    (write h a t).length = h.length := by
  induction h generalizing a with
  | nil => rfl
  | cons x h ih =>
    cases a with
    | zero => rfl
    | succ a => simp [write, List.length, ih]

theorem look_write_self {h : Heap} {a : Nat} (t : Thunk) (ha : a < h.length) :
    look (write h a t) a = some t := by
  induction h generalizing a with
  | nil => simp [List.length] at ha
  | cons x h ih =>
    cases a with
    | zero => rfl
    | succ a =>
      simp only [List.length_cons, Nat.succ_lt_succ_iff] at ha
      simpa [write, look] using ih ha

theorem look_write_ne (h : Heap) {a b : Nat} (t : Thunk) (hab : a ≠ b) :
    look (write h a t) b = look h b := by
  induction h generalizing a b with
  | nil => rfl
  | cons x h ih =>
    cases a with
    | zero =>
      cases b with
      | zero => exact absurd rfl hab
      | succ b => rfl
    | succ a =>
      cases b with
      | zero => rfl
      | succ b =>
        simp only [write, look]
        exact ih (fun e => hab (congrArg Nat.succ e))

theorem look_append_left {h : Heap} (h2 : Heap) {a : Nat} (ha : a < h.length) :
    look (h ++ h2) a = look h a := by
  induction h generalizing a with
  | nil => simp [List.length] at ha
  | cons x h ih =>
    cases a with
    | zero => rfl
    | succ a =>
      simp only [List.length_cons, Nat.succ_lt_succ_iff] at ha
      simpa [look] using ih ha

theorem look_append_length (h : Heap) (t : Thunk) :
    look (h ++ [t]) h.length = some t := by
  induction h with
  | nil => rfl
  | cons x h ih => simpa [look] using ih

theorem look_mem {h : Heap} {a : Nat} {t : Thunk} (hl : look h a = some t) : t ∈ h := by
  induction h generalizing a with
  | nil => simp [look] at hl
  | cons x h ih =>
    cases a with
    | zero =>
      simp only [look, Option.some.injEq] at hl
      simp [hl]
    | succ a =>
      simp only [look] at hl
      exact List.mem_cons_of_mem x (ih hl)

/-! The executable well-formedness check implies `WF`. -/

theorem WFb_WF {h : Heap} (hb : WFb h = true) : WF h := by
  intro a n hl
  have hm : Thunk.EThunk n ∈ h := look_mem hl
  have := List.all_eq_true.mp hb _ hm
  cases n with
  | Int i => exact ⟨i, rfl⟩
  | ThunkRef b => simp at this

/-! The single-transition discipline `Step` is reflexive, transitive, and
closed under the memoization write performed by `reduce`. -/

theorem Step.refl (h : Heap) : Step h h :=
  ⟨rfl, fun _ => Or.inl rfl⟩

theorem Step.trans {h h1 h2 : Heap} (s1 : Step h h1) (s2 : Step h1 h2) : Step h h2 := by
  refine ⟨s1.1.trans s2.1, fun a => ?_⟩
  rcases s1.2 a with e1 | ⟨bt, i, hu, he⟩
  · rcases s2.2 a with e2 | ⟨bt, i, hu, he⟩
    · exact Or.inl (e1.trans e2)
    · exact Or.inr ⟨bt, i, e1.trans hu, he⟩
  · rcases s2.2 a with e2 | ⟨bt', i', hu', he'⟩
    · exact Or.inr ⟨bt, i, hu, e2 ▸ he⟩
    · rw [he] at hu'; simp at hu'

theorem Step.write_done {h h1 : Heap} {a : Nat} {bt : BinThunk} {c : Int}
    (hla : look h a = some (Thunk.UThunk bt)) (s : Step h h1) :
    Step h (write h1 a (Thunk.EThunk (Node.Int c))) := by
  refine ⟨s.1.trans (length_write h1 a _).symm, fun b => ?_⟩
  by_cases hab : a = b
  · subst hab
    refine Or.inr ⟨bt, c, hla, ?_⟩
    have : a < h1.length := s.1 ▸ look_lt_length hla
    exact look_write_self _ this
  · rcases s.2 b with e | ⟨bt', i', hu, he⟩
    · exact Or.inl (e.trans (look_write_ne h1 _ hab).symm)
    · exact Or.inr ⟨bt', i', hu, (look_write_ne h1 _ hab).symm ▸ he⟩

/-! Heap evolution of the evaluator: any run of `Node.eval` relates the input
and output heaps by `Step` — lengths are preserved, and the only cell changes
are pending-to-done writes of integer results. -/

theorem eval_Step : ∀ (f : Nat) (n : Node) (h : Heap), Step h (Node.eval f n h).heap := by
  intro f
  induction f with
  | zero => intro n h; exact Step.refl h
  | succ f ih =>
    intro n h
    cases n with
    | Int i => exact Step.refl h
    | ThunkRef a =>
      simp only [Node.eval]
      cases hla : look h a with
      | none => exact Step.refl h
      | some t =>
        cases t with
        | EThunk v => exact Step.refl h
        | UThunk bt =>
          dsimp only
          have s1 : Step h (Node.eval f bt.nl h).heap := ih bt.nl h
          rcases hrl : Node.eval f bt.nl h with ⟨ol, h1, t1⟩
          rw [hrl] at s1
          cases ol with
          | fault e => exact s1
          | outOfFuel => exact s1
          | ok vl =>
            dsimp only
            have s2 : Step h1 (Node.eval f bt.nr h1).heap := ih bt.nr h1
            rcases hrr : Node.eval f bt.nr h1 with ⟨or, h2, t2⟩
            rw [hrr] at s2
            have s12 : Step h h2 := Step.trans s1 s2
            cases or with
            | fault e => exact s12
            | outOfFuel => exact s12
            | ok vr =>
              dsimp only
              cases vl with
              | ThunkRef b => exact s12
              | Int il =>
                dsimp only
                cases vr with
                | ThunkRef b => exact s12
                | Int ir =>
                  dsimp only
                  cases hap : applyOp bt.op il ir with
                  | error e => exact s12
                  | ok c =>
                    dsimp only
                    have sw : Step h (write h2 a (Thunk.EThunk (Node.Int c))) :=
                      Step.write_done hla s12
                    cases hlw : look (write h2 a (Thunk.EThunk (Node.Int c))) a with
                    | none => exact sw
                    | some t' => cases t' <;> exact sw

/-! The faults the native operator can raise. -/

theorem applyOp_error {op : BinOp} {a b : Int} {e : Fault}
    (he : applyOp op a b = Except.error e) :
    e = Fault.divisionByZero ∨ e = Fault.divisionOverflow := by
  cases op with
  | add => exact Except.noConfusion he
  | sub => exact Except.noConfusion he
  | mul => exact Except.noConfusion he
  | div =>
    simp only [applyOp] at he
    split_ifs at he with h1 h2
    · injection he with h; exact Or.inl h.symm
    · injection he with h; exact Or.inr h.symm

/-! The internal-consistency panic of `Node::eval` — observing a still-pending
cell immediately after `reduce` — is unreachable: the reduce step always
leaves the inspected cell done. -/

theorem eval_no_pending :
    ∀ (f : Nat) (n : Node) (h : Heap), (Node.eval f n h).out ≠ Outcome.fault Fault.evalPending := by
  intro f
  induction f with
  | zero => intro n h; simp [Node.eval]
  | succ f ih =>
    intro n h
    cases n with
    | Int i => simp [Node.eval]
    | ThunkRef a =>
      simp only [Node.eval]
      cases hla : look h a with
      | none => simp
      | some t =>
        cases t with
        | EThunk v => simp
        | UThunk bt =>
          dsimp only
          have ihl := ih bt.nl h
          rcases hrl : Node.eval f bt.nl h with ⟨ol, h1, t1⟩
          rw [hrl] at ihl
          cases ol with
          | fault e => exact ihl
          | outOfFuel => simp
          | ok vl =>
            dsimp only
            have ihr := ih bt.nr h1
            rcases hrr : Node.eval f bt.nr h1 with ⟨or, h2, t2⟩
            rw [hrr] at ihr
            cases or with
            | fault e => exact ihr
            | outOfFuel => simp
            | ok vr =>
              dsimp only
              cases vl with
              | ThunkRef b => simp
              | Int il =>
                dsimp only
                cases vr with
                | ThunkRef b => simp
                | Int ir =>
                  dsimp only
                  cases hap : applyOp bt.op il ir with
                  | error e =>
                    rcases applyOp_error hap with rfl | rfl <;> simp
                  | ok c =>
                    dsimp only
                    cases hlw : look (write h2 a (Thunk.EThunk (Node.Int c))) a with
                    | none =>
                      have : a < h2.length := by
                        have hlen1 : h.length = h1.length := (eval_Step f bt.nl h).1.trans (by rw [hrl])
                        have hlen2 : h1.length = h2.length := (eval_Step f bt.nr h1).1.trans (by rw [hrr])
                        have := look_lt_length hla
                        omega
                      rw [look_write_self _ this] at hlw
                      exact Option.noConfusion hlw
                    | some t' =>
                      cases t' with
                      | UThunk bt' =>
                        have : a < h2.length := by
                          have hlen1 : h.length = h1.length := (eval_Step f bt.nl h).1.trans (by rw [hrl])
                          have hlen2 : h1.length = h2.length := (eval_Step f bt.nr h1).1.trans (by rw [hrr])
                          have := look_lt_length hla
                          omega
                        rw [look_write_self _ this] at hlw
                        simp at hlw
                      | EThunk w => simp

/-! After a successful `eval` of a thunk reference, the referenced cell holds
exactly the returned node, memoized. -/

theorem eval_ok_thunkRef_done {f a v h h' t}
    (he : Node.eval f (Node.ThunkRef a) h = ⟨Outcome.ok v, h', t⟩) :
    look h' a = some (Thunk.EThunk v) := by
  cases f with
  | zero => simp [Node.eval] at he
  | succ f =>
    simp only [Node.eval] at he
    rcases hla : look h a with _ | tc
    · rw [hla] at he; simp at he
    · rw [hla] at he
      cases tc with
      | EThunk w =>
        dsimp only at he
        injection he with h1 h2 h3
        injection h1 with h1
        subst h1; subst h2
        exact hla
      | UThunk bt =>
        dsimp only at he
        rcases hrl : Node.eval f bt.nl h with ⟨ol, h1, t1⟩
        rw [hrl] at he
        cases ol with
        | fault e => simp at he
        | outOfFuel => simp at he
        | ok vl =>
          dsimp only at he
          rcases hrr : Node.eval f bt.nr h1 with ⟨or, h2, t2⟩
          rw [hrr] at he
          cases or with
          | fault e => simp at he
          | outOfFuel => simp at he
          | ok vr =>
            dsimp only at he
            cases vl with
            | ThunkRef b => simp at he
            | Int il =>
              dsimp only at he
              cases vr with
              | ThunkRef b => simp at he
              | Int ir =>
                dsimp only at he
                cases hap : applyOp bt.op il ir with
                | error e => rw [hap] at he; simp at he
                | ok c =>
                  rw [hap] at he
                  dsimp only at he
                  cases hlw : look (write h2 a (Thunk.EThunk (Node.Int c))) a with
                  | none => rw [hlw] at he; simp at he
                  | some t' =>
                    rw [hlw] at he
                    cases t' with
                    | UThunk bt' => simp at he
                    | EThunk w =>
                      dsimp only at he
                      injection he with h1 h2 h3
                      injection h1 with h1
                      subst h1; subst h2
                      exact hlw

/-! Well-formedness (every done cell stores an integer node) is preserved by
any heap evolution obeying the single-transition discipline, hence by
evaluation. -/

theorem Step_WF {h h' : Heap} (s : Step h h') (hwf : WF h) : WF h' := by
  intro a n hl
  rcases s.2 a with e | ⟨bt, i, hu, he⟩
  · exact hwf a n (by rw [e]; exact hl)
  · rw [he] at hl
    injection hl with hl
    injection hl with hl
    exact ⟨i, hl.symm⟩

theorem eval_WF (f : Nat) (n : Node) (h : Heap) (hwf : WF h) :
    WF (Node.eval f n h).heap :=
  Step_WF (eval_Step f n h) hwf

/-! A successful run of the `bin_arith!` body always produces an immediate
integer node. -/

theorem binArith_ok_int {f : Nat} {op : BinOp} {nl nr v : Node} {h h' : Heap} {t : List Event}
    (hb : binArith f op nl nr h = ⟨Outcome.ok v, h', t⟩) : ∃ c, v = Node.Int c := by
  simp only [binArith] at hb
  rcases hrl : Node.eval f nl h with ⟨ol, h1, t1⟩
  rw [hrl] at hb
  cases ol with
  | fault e => simp at hb
  | outOfFuel => simp at hb
  | ok vl =>
    dsimp only at hb
    rcases hrr : Node.eval f nr h1 with ⟨or, h2, t2⟩
    rw [hrr] at hb
    cases or with
    | fault e => simp at hb
    | outOfFuel => simp at hb
    | ok vr =>
      dsimp only at hb
      cases vl with
      | ThunkRef b => simp at hb
      | Int il =>
        dsimp only at hb
        cases vr with
        | ThunkRef b => simp at hb
        | Int ir =>
          dsimp only at hb
          cases hap : applyOp op il ir with
          | error e => rw [hap] at hb; simp at hb
          | ok c =>
            rw [hap] at hb
            dsimp only at hb
            injection hb with h1 h2 h3
            injection h1 with h1
            exact ⟨c, h1.symm⟩

/-! Heap evolution of the derived `bin_arith!` and `reduce` definitions. -/

theorem binArith_Step (f : Nat) (op : BinOp) (nl nr : Node) (h : Heap) :
    Step h (binArith f op nl nr h).heap := by
  have s1 := eval_Step f nl h
  rcases hrl : Node.eval f nl h with ⟨ol, h1, t1⟩
  rw [hrl] at s1
  simp only [binArith, hrl]
  cases ol with
  | fault e => exact s1
  | outOfFuel => exact s1
  | ok vl =>
    dsimp only
    have s2 := eval_Step f nr h1
    rcases hrr : Node.eval f nr h1 with ⟨or, h2, t2⟩
    rw [hrr] at s2
    have s12 := Step.trans s1 s2
    cases or with
    | fault e => exact s12
    | outOfFuel => exact s12
    | ok vr =>
      dsimp only
      cases vl with
      | ThunkRef b => exact s12
      | Int il =>
        dsimp only
        cases vr with
        | ThunkRef b => exact s12
        | Int ir =>
          dsimp only
          cases hap : applyOp op il ir with
          | error e => exact s12
          | ok c => exact s12

theorem reduce_Step (f : Nat) (n : Node) (h : Heap) : Step h (Node.reduce f n h).heap := by
  cases n with
  | Int i => exact Step.refl h
  | ThunkRef a =>
    simp only [Node.reduce]
    cases hla : look h a with
    | none => exact Step.refl h
    | some t =>
      cases t with
      | EThunk v => exact Step.refl h
      | UThunk bt =>
        dsimp only
        have s := binArith_Step f bt.op bt.nl bt.nr h
        rcases hb : binArith f bt.op bt.nl bt.nr h with ⟨ob, h1, t1⟩
        rw [hb] at s
        cases ob with
        | fault e => exact s
        | outOfFuel => exact s
        | ok v =>
          obtain ⟨c, rfl⟩ := binArith_ok_int hb
          exact Step.write_done hla s

/-! A `reduce` that returns normally leaves the referenced cell done. -/

theorem reduce_ok_done (f : Nat) (a : Nat) (h : Heap)
    (hst : (Node.reduce f (Node.ThunkRef a) h).st = RedOut.ok) :
    ∃ w, look (Node.reduce f (Node.ThunkRef a) h).heap a = some (Thunk.EThunk w) := by
  simp only [Node.reduce] at hst ⊢
  cases hla : look h a with
  | none => rw [hla] at hst; simp at hst
  | some t =>
    rw [hla] at hst
    cases t with
    | EThunk v => exact ⟨v, hla⟩
    | UThunk bt =>
      dsimp only at hst ⊢
      have s := binArith_Step f bt.op bt.nl bt.nr h
      rcases hb : binArith f bt.op bt.nl bt.nr h with ⟨ob, h1, t1⟩
      rw [hb] at hst s
      cases ob with
      | fault e => simp at hst
      | outOfFuel => simp at hst
      | ok v =>
        have hlen : h.length = h1.length := s.1
        have ha : a < h1.length := by
          have := look_lt_length hla
          omega
        exact ⟨v, look_write_self _ ha⟩

/-! A successful `eval` on a well-formed heap returns an immediate integer. -/

theorem eval_ok_int {f : Nat} {n v : Node} {h h' : Heap} {t : List Event} (hwf : WF h)
    (he : Node.eval f n h = ⟨Outcome.ok v, h', t⟩) : ∃ i, v = Node.Int i := by
  cases f with
  | zero => simp [Node.eval] at he
  | succ f =>
    cases n with
    | Int i =>
      simp only [Node.eval] at he
      injection he with h1 h2 h3
      injection h1 with h1
      exact ⟨i, h1.symm⟩
    | ThunkRef a =>
      have hd := eval_ok_thunkRef_done he
      have hwf' : WF h' := by
        have hp := Step_WF (eval_Step (f + 1) (Node.ThunkRef a) h) hwf
        rw [he] at hp
        exact hp
      exact hwf' a v hd

/-! Memoized idempotence: once `eval` has produced a value, evaluating the
same node again (or any clone of it — a clone is the same scalar or the same
cell address) returns the same value, leaves the heap untouched, and records
only the entry event: no deferred computation is invoked again. -/

theorem eval_twice {f g : Nat} {n v : Node} {h h' : Heap} {t : List Event} (hg : 0 < g)
    (he : Node.eval f n h = ⟨Outcome.ok v, h', t⟩) :
    Node.eval g n h' = ⟨Outcome.ok v, h', [Event.force n]⟩ := by
  obtain ⟨g, rfl⟩ : ∃ g', g = g' + 1 := ⟨g - 1, by omega⟩
  cases n with
  | Int i =>
    cases f with
    | zero => simp [Node.eval] at he
    | succ f =>
      simp only [Node.eval] at he
      injection he with h1 h2 h3
      subst h2
      injection h1 with h1
      subst h1
      rfl
  | ThunkRef a =>
    have hd := eval_ok_thunkRef_done he
    simp [Node.eval, hd]

/-! Every evaluation (with fuel to start) records its entry as the first
event: the trace of `eval n` begins with `force n`. -/

theorem eval_trace_cons (f : Nat) (n : Node) (h : Heap) :
    ∃ t, (Node.eval (f + 1) n h).trace = Event.force n :: t := by
  cases n with
  | Int i => exact ⟨[], rfl⟩
  | ThunkRef a =>
    simp only [Node.eval]
    cases hla : look h a with
    | none => exact ⟨[], rfl⟩
    | some tc =>
      cases tc with
      | EThunk v => exact ⟨[], rfl⟩
      | UThunk bt =>
        dsimp only
        rcases hrl : Node.eval f bt.nl h with ⟨ol, h1, t1⟩
        cases ol with
        | fault e => exact ⟨_, rfl⟩
        | outOfFuel => exact ⟨_, rfl⟩
        | ok vl =>
          dsimp only
          rcases hrr : Node.eval f bt.nr h1 with ⟨or, h2, t2⟩
          cases or with
          | fault e => exact ⟨_, rfl⟩
          | outOfFuel => exact ⟨_, rfl⟩
          | ok vr =>
            dsimp only
            cases vl with
            | ThunkRef b => exact ⟨_, rfl⟩
            | Int il =>
              dsimp only
              cases vr with
              | ThunkRef b => exact ⟨_, rfl⟩
              | Int ir =>
                dsimp only
                cases hap : applyOp bt.op il ir with
                | error e => exact ⟨_, rfl⟩
                | ok c =>
                  dsimp only
                  cases hlw : look (write h2 a (Thunk.EThunk (Node.Int c))) a with
                  | none => exact ⟨_, rfl⟩
                  | some tw => cases tw <;> exact ⟨_, rfl⟩

/-! Structure of a `bin_arith!` run: the left operand is forced on the input
heap; a left fault is returned as-is, the right operand untouched; on success
of both, the trace is left-trace, then right-trace, then the operator
application. -/

theorem binArith_left_fault {f : Nat} {op : BinOp} {nl nr : Node} {h : Heap} {e : Fault}
    (hl : (Node.eval f nl h).out = Outcome.fault e) :
    binArith f op nl nr h
      = ⟨Outcome.fault e, (Node.eval f nl h).heap, (Node.eval f nl h).trace⟩ := by
  rcases hrl : Node.eval f nl h with ⟨ol, h1, t1⟩
  rw [hrl] at hl
  dsimp only at hl
  subst hl
  simp [binArith, hrl]

theorem binArith_trace_order {f : Nat} {op : BinOp} {nl nr : Node} {h : Heap} {a b : Int}
    (hl : (Node.eval f nl h).out = Outcome.ok (Node.Int a))
    (hr : (Node.eval f nr (Node.eval f nl h).heap).out = Outcome.ok (Node.Int b)) :
    (binArith f op nl nr h).trace
      = (Node.eval f nl h).trace ++ (Node.eval f nr (Node.eval f nl h).heap).trace
        ++ [Event.apply op a b] := by
  rcases hrl : Node.eval f nl h with ⟨ol, h1, t1⟩
  rw [hrl] at hl hr
  dsimp only at hl hr
  subst hl
  rcases hrr : Node.eval f nr h1 with ⟨or, h2, t2⟩
  rw [hrr] at hr
  dsimp only at hr
  subst hr
  simp only [binArith, hrl, hrr]
  cases applyOp op a b <;> simp

/-! Type-mismatch faults of `bin_arith!`: checked after both operands are
forced, left operand first, the fault carrying the offending node. -/

theorem binArith_mismatch_left {f : Nat} {op : BinOp} {nl nr vl vr : Node} {h : Heap}
    (hl : (Node.eval f nl h).out = Outcome.ok vl) (hvl : vl.isInt = false)
    (hr : (Node.eval f nr (Node.eval f nl h).heap).out = Outcome.ok vr) :
    (binArith f op nl nr h).out = Outcome.fault (Fault.typeMismatchLeft vl) := by
  rcases hrl : Node.eval f nl h with ⟨ol, h1, t1⟩
  rw [hrl] at hl hr
  dsimp only at hl hr
  subst hl
  rcases hrr : Node.eval f nr h1 with ⟨or, h2, t2⟩
  rw [hrr] at hr
  dsimp only at hr
  subst hr
  cases vl with
  | Int i => simp [Node.isInt] at hvl
  | ThunkRef b =>
    cases vr with
    | Int i => simp [binArith, hrl, hrr]
    | ThunkRef b2 => simp [binArith, hrl, hrr]

theorem binArith_mismatch_right {f : Nat} {op : BinOp} {nl nr vr : Node} {h : Heap} {il : Int}
    (hl : (Node.eval f nl h).out = Outcome.ok (Node.Int il)) (hvr : vr.isInt = false)
    (hr : (Node.eval f nr (Node.eval f nl h).heap).out = Outcome.ok vr) :
    (binArith f op nl nr h).out = Outcome.fault (Fault.typeMismatchRight vr) := by
  rcases hrl : Node.eval f nl h with ⟨ol, h1, t1⟩
  rw [hrl] at hl hr
  dsimp only at hl hr
  subst hl
  rcases hrr : Node.eval f nr h1 with ⟨or, h2, t2⟩
  rw [hrr] at hr
  dsimp only at hr
  subst hr
  cases vr with
  | Int i => simp [Node.isInt] at hvr
  | ThunkRef b => simp [binArith, hrl, hrr]

/-! The constructors are pure allocation. -/

theorem binCtor_eq (op : BinOp) (nl nr : Node) (h : Heap) :
    binCtor op nl nr h = (Node.ThunkRef h.length, h ++ [Thunk.UThunk ⟨op, nl, nr⟩]) := by
  cases op <;> rfl

/-! Evaluating a reference to a pending binary thunk over two immediate
integers runs the operator in one reduce step. -/

theorem eval_uthunk_ints {h : Heap} {x : Nat} {op : BinOp} {a b : Int}
    (hx : look h x = some (Thunk.UThunk ⟨op, Node.Int a, Node.Int b⟩)) :
    (Node.eval 2 (Node.ThunkRef x) h).out
      = match applyOp op a b with
        | Except.ok c => Outcome.ok (Node.Int c)
        | Except.error e => Outcome.fault e := by
  simp only [Node.eval, hx]
  cases hap : applyOp op a b with
  | error e => rfl
  | ok c =>
    dsimp only
    rw [look_write_self _ (look_lt_length hx)]

theorem eval_binCtor_ints (op : BinOp) (a b : Int) (h : Heap) :
    (Node.eval 2 (binCtor op (int a) (int b) h).1 (binCtor op (int a) (int b) h).2).out
      = match applyOp op a b with
        | Except.ok c => Outcome.ok (Node.Int c)
        | Except.error e => Outcome.fault e := by
  rw [binCtor_eq]
  exact eval_uthunk_ints (look_append_length h _)

/-- C1: Memoization/idempotence of `evaluate`.  If a first call of `eval` on
`n` succeeds with value `v` and heap `h'`, then any later call of `eval` on `n`
— or on any clone of `n`, a clone being the same scalar or the same cell
address — against `h'` returns the same `v`, leaves the heap unchanged, and
its trace is just the entry event: it contains no `invoke`, so the deferred
computation of the shared thunk is not run again; it is invoked at most once. -/
theorem evaluate_idempotent (f g : Nat) (n v : Node) (h h' : Heap) (t : List Event)
    (hg : 0 < g) (he : Node.eval f n h = ⟨Outcome.ok v, h', t⟩) :
    Node.eval g n h' = ⟨Outcome.ok v, h', [Event.force n]⟩
      ∧ ∀ a : Nat, Event.invoke a ∉ (Node.eval g n h').trace := by
  have h2 := eval_twice hg he
  refine ⟨h2, fun a => ?_⟩
  rw [h2]
  simp

/-- Witness for C1 at a concrete input: forcing `add(int 2, int 3)` memoizes
`5`; the second force reads it back without any `invoke` event. -/
theorem evaluate_idempotent_witness :
    Node.eval 1 (Node.ThunkRef 0) [Thunk.EThunk (Node.Int 5)]
      = ⟨Outcome.ok (Node.Int 5), [Thunk.EThunk (Node.Int 5)], [Event.force (Node.ThunkRef 0)]⟩ :=
  (evaluate_idempotent 2 1 (Node.ThunkRef 0) (Node.Int 5)
    [Thunk.UThunk ⟨BinOp.add, Node.Int 2, Node.Int 3⟩] [Thunk.EThunk (Node.Int 5)]
    [Event.force (Node.ThunkRef 0), Event.invoke 0, Event.force (Node.Int 2),
      Event.force (Node.Int 3), Event.apply BinOp.add 2 3]
    (by decide) (by decide)).1

/-- C2: State-transition invariant.  Across a run of `eval` (hence of the
`reduce` it performs) every cell is either untouched or goes `Pending → Done`
holding an integer result — in particular a done cell is never rewritten and
never returns to pending, so the pending-to-done write is the only mutation a
cell ever undergoes; the constructors only append a fresh pending cell,
leaving every existing cell unchanged; the formatters return strings without
any heap output at all. -/
theorem thunk_single_transition (f : Nat) (op : BinOp) (n nl nr : Node) (h : Heap) (a : Nat)
    (ha : a < h.length) :
    heapEvolve h (Node.eval f n h).heap a
    ∧ heapEvolve h (Node.reduce f n h).heap a
    ∧ look (binCtor op nl nr h).2 a = look h a
    ∧ look (binCtor op nl nr h).2 h.length = some (Thunk.UThunk ⟨op, nl, nr⟩) := by
  refine ⟨(eval_Step f n h).2 a, (reduce_Step f n h).2 a, ?_, ?_⟩
  · rw [binCtor_eq]; exact look_append_left _ ha
  · rw [binCtor_eq]; exact look_append_length h _

/-- Witness for C2 at a concrete input. -/
theorem thunk_single_transition_witness :
    look (binCtor BinOp.add (Node.Int 2) (Node.Int 3) [Thunk.EThunk (Node.Int 9)]).2 0
      = look [Thunk.EThunk (Node.Int 9)] 0
    ∧ look (binCtor BinOp.add (Node.Int 2) (Node.Int 3) [Thunk.EThunk (Node.Int 9)]).2 1
      = some (Thunk.UThunk ⟨BinOp.add, Node.Int 2, Node.Int 3⟩) :=
  ⟨(thunk_single_transition 2 BinOp.add (Node.ThunkRef 0) (Node.Int 2) (Node.Int 3)
      [Thunk.EThunk (Node.Int 9)] 0 (by decide)).2.2.1,
   (thunk_single_transition 2 BinOp.add (Node.ThunkRef 0) (Node.Int 2) (Node.Int 3)
      [Thunk.EThunk (Node.Int 9)] 0 (by decide)).2.2.2⟩

/-- C3: Arithmetic correctness on integer operands.  For all i64 operands,
evaluating the node built by an arithmetic constructor over `int a` and
`int b` yields exactly the native i64 operator's outcome (`applyOp`); in
particular `evaluate(add(makeInt 2, makeInt 3)) = 5`,
`evaluate(mul(add(makeInt 2, makeInt 3), makeInt 4)) = 20`, and
`evaluate(div(makeInt 7, makeInt 2)) = 3`, integer division truncating toward
zero. -/
theorem arith_native (op : BinOp) (a b : Int) (h : Heap)
    (ha1 : i64Min ≤ a) (ha2 : a ≤ i64Max) (hb1 : i64Min ≤ b) (hb2 : b ≤ i64Max) :
    ((Node.eval 2 (binCtor op (int a) (int b) h).1 (binCtor op (int a) (int b) h).2).out
      = match applyOp op a b with
        | Except.ok c => Outcome.ok (Node.Int c)
        | Except.error e => Outcome.fault e)
    ∧ (Node.eval 2 (add (int 2) (int 3) []).1 (add (int 2) (int 3) []).2).out
        = Outcome.ok (Node.Int 5)
    ∧ (Node.eval 3 (mul (add (int 2) (int 3) []).1 (int 4) (add (int 2) (int 3) []).2).1
          (mul (add (int 2) (int 3) []).1 (int 4) (add (int 2) (int 3) []).2).2).out
        = Outcome.ok (Node.Int 20)
    ∧ (Node.eval 2 (div (int 7) (int 2) []).1 (div (int 7) (int 2) []).2).out
        = Outcome.ok (Node.Int 3)
    ∧ Int.tdiv 7 2 = 3 ∧ Int.tdiv (-7) 2 = -3 ∧ Int.tdiv 7 (-2) = -3 :=
  ⟨eval_binCtor_ints op a b h, by decide, by decide, by decide, by decide, by decide, by decide⟩

/-- Witness for C3 at a concrete input. -/
theorem arith_native_witness :
    (Node.eval 2 (binCtor BinOp.add (int 2) (int 3) []).1
        (binCtor BinOp.add (int 2) (int 3) []).2).out = Outcome.ok (Node.Int 5) :=
  (arith_native BinOp.add 2 3 [] (by decide) (by decide) (by decide) (by decide)).1

/-- C4: Laziness of construction.  An arithmetic constructor performs no
evaluation work: it returns exactly a reference to a freshly appended pending
cell capturing the two operand nodes, every existing cell is unchanged (so no
operand's deferred computation is invoked and no thunk state moves), and the
fresh cell is pending. -/
theorem construction_lazy (op : BinOp) (nl nr : Node) (h : Heap) (a : Nat) (ha : a < h.length) :
    binCtor op nl nr h = (Node.ThunkRef h.length, h ++ [Thunk.UThunk ⟨op, nl, nr⟩])
    ∧ look (binCtor op nl nr h).2 a = look h a
    ∧ look (binCtor op nl nr h).2 h.length = some (Thunk.UThunk ⟨op, nl, nr⟩) := by
  refine ⟨binCtor_eq op nl nr h, ?_, ?_⟩
  · rw [binCtor_eq]; exact look_append_left _ ha
  · rw [binCtor_eq]; exact look_append_length h _

/-- Witness for C4 at a concrete input. -/
theorem construction_lazy_witness :
    binCtor BinOp.mul (Node.ThunkRef 0) (Node.Int 4)
        [Thunk.UThunk ⟨BinOp.add, Node.Int 2, Node.Int 3⟩]
      = (Node.ThunkRef 1,
          [Thunk.UThunk ⟨BinOp.add, Node.Int 2, Node.Int 3⟩,
            Thunk.UThunk ⟨BinOp.mul, Node.ThunkRef 0, Node.Int 4⟩]) :=
  (construction_lazy BinOp.mul (Node.ThunkRef 0) (Node.Int 4)
    [Thunk.UThunk ⟨BinOp.add, Node.Int 2, Node.Int 3⟩] 0 (by decide)).1

/-- C5: Evaluate returns the terminal Value.  On a well-formed heap (every
done cell stores an integer — the invariant every reachable heap satisfies,
and which `eval` preserves), `eval` never hits the still-pending-after-reduce
panic, a successful `eval` returns an `Int` node — never an unevaluated thunk
reference — and after a normal `reduce` of a thunk reference the referenced
cell is done. -/
theorem evaluate_returns_value (f : Nat) (n v : Node) (h : Heap) (a : Nat) (hwf : WF h) :
    (Node.eval f n h).out ≠ Outcome.fault Fault.evalPending
    ∧ (∀ h' t, Node.eval f n h = ⟨Outcome.ok v, h', t⟩ → ∃ i, v = Node.Int i)
    ∧ ((Node.reduce f (Node.ThunkRef a) h).st = RedOut.ok →
        ∃ w, look (Node.reduce f (Node.ThunkRef a) h).heap a = some (Thunk.EThunk w))
    ∧ WF (Node.eval f n h).heap :=
  ⟨eval_no_pending f n h, fun h' t he => eval_ok_int hwf he,
    reduce_ok_done f a h, eval_WF f n h hwf⟩

/-- Witness for C5 at a concrete input. -/
theorem evaluate_returns_value_witness :
    Node.eval 2 (Node.ThunkRef 0) [Thunk.UThunk ⟨BinOp.add, Node.Int 2, Node.Int 3⟩]
        = ⟨Outcome.ok (Node.Int 5), [Thunk.EThunk (Node.Int 5)],
            [Event.force (Node.ThunkRef 0), Event.invoke 0, Event.force (Node.Int 2),
              Event.force (Node.Int 3), Event.apply BinOp.add 2 3]⟩
    ∧ (Node.eval 2 (Node.ThunkRef 0)
        [Thunk.UThunk ⟨BinOp.add, Node.Int 2, Node.Int 3⟩]).out
        ≠ Outcome.fault Fault.evalPending :=
  ⟨by decide,
   (evaluate_returns_value 2 (Node.ThunkRef 0) (Node.Int 5)
      [Thunk.UThunk ⟨BinOp.add, Node.Int 2, Node.Int 3⟩] 0 (WFb_WF (by decide))).1⟩

/-- C6: Operand forcing order.  In the `bin_arith!` body of any binary
operation: a fault while forcing the left operand is returned as the whole
result — heap and trace are exactly those of the left forcing, so the right
operand is never forced and no fault it would raise can surface; on success of
both forcings the trace is the left forcing's trace, then the right forcing's
trace (run on the heap the left forcing left), then the operator application —
and since every forcing trace begins with its own `force` entry event, the
left operand's forcing strictly precedes the right's, and both precede the
operator. -/
theorem left_before_right (f : Nat) (op : BinOp) (nl nr : Node) (h : Heap) :
    (∀ e : Fault, (Node.eval f nl h).out = Outcome.fault e →
      binArith f op nl nr h
        = ⟨Outcome.fault e, (Node.eval f nl h).heap, (Node.eval f nl h).trace⟩)
    ∧ (∀ a b : Int, (Node.eval f nl h).out = Outcome.ok (Node.Int a) →
        (Node.eval f nr (Node.eval f nl h).heap).out = Outcome.ok (Node.Int b) →
        (binArith f op nl nr h).trace
          = (Node.eval f nl h).trace ++ (Node.eval f nr (Node.eval f nl h).heap).trace
            ++ [Event.apply op a b])
    ∧ (∀ (m : Node) (h0 : Heap), ∃ t, (Node.eval (f + 1) m h0).trace = Event.force m :: t) :=
  ⟨fun _ he => binArith_left_fault he,
   fun _ _ hl hr => binArith_trace_order hl hr,
   fun m h0 => eval_trace_cons f m h0⟩

/-- Witness for C6 at a concrete input: forcing `add(int 2, int 3)` records
the left forcing, then the right forcing, then the application. -/
theorem left_before_right_witness :
    (binArith 1 BinOp.add (int 2) (int 3) []).trace
      = (Node.eval 1 (int 2) []).trace
        ++ (Node.eval 1 (int 3) (Node.eval 1 (int 2) []).heap).trace
        ++ [Event.apply BinOp.add 2 3] :=
  (left_before_right 1 BinOp.add (int 2) (int 3) []).2.1 2 3 (by decide) (by decide)

/-- C7: Type-mismatch fault.  In any binary operation, a forced operand that
is not the integer variant is an unconditional fault (no coercion, no
recovery) identifying the offending side and carrying the observed node, the
left operand being checked first; concretely,
`evaluate(add(makeInt 1, n))` with `n` forcing to a non-integer faults
identifying the right operand. -/
theorem type_mismatch (f : Nat) (op : BinOp) (nl nr vl vr : Node) (h : Heap) (il : Int) :
    ((Node.eval f nl h).out = Outcome.ok vl → vl.isInt = false →
      (Node.eval f nr (Node.eval f nl h).heap).out = Outcome.ok vr →
      (binArith f op nl nr h).out = Outcome.fault (Fault.typeMismatchLeft vl))
    ∧ ((Node.eval f nl h).out = Outcome.ok (Node.Int il) →
        (Node.eval f nr (Node.eval f nl h).heap).out = Outcome.ok vr → vr.isInt = false →
        (binArith f op nl nr h).out = Outcome.fault (Fault.typeMismatchRight vr))
    ∧ (Node.eval 3 (add (int 1) (Node.ThunkRef 0) [Thunk.EThunk (Node.ThunkRef 0)]).1
          (add (int 1) (Node.ThunkRef 0) [Thunk.EThunk (Node.ThunkRef 0)]).2).out
        = Outcome.fault (Fault.typeMismatchRight (Node.ThunkRef 0)) :=
  ⟨fun hl hv hr => binArith_mismatch_left hl hv hr,
   fun hl hr hv => binArith_mismatch_right hl hv hr,
   by decide⟩

/-- Witness for C7 at a concrete input. -/
theorem type_mismatch_witness :
    (binArith 1 BinOp.add (Node.ThunkRef 0) (int 1) [Thunk.EThunk (Node.ThunkRef 0)]).out
      = Outcome.fault (Fault.typeMismatchLeft (Node.ThunkRef 0)) :=
  (type_mismatch 1 BinOp.add (Node.ThunkRef 0) (int 1) (Node.ThunkRef 0) (Node.Int 1)
    [Thunk.EThunk (Node.ThunkRef 0)] 0).1 (by decide) (by decide) (by decide)

/-- C8: Division-by-zero fault.  For every i64 value `a`, evaluating
`div(makeInt a, makeInt 0)` is the unconditional native division fault; no
special-casing or recovery. -/
theorem div_by_zero (a : Int) (h : Heap) (ha1 : i64Min ≤ a) (ha2 : a ≤ i64Max) :
    (Node.eval 2 (div (int a) (int 0) h).1 (div (int a) (int 0) h).2).out
      = Outcome.fault Fault.divisionByZero
    ∧ (Node.eval 2 (div (int 5) (int 0) []).1 (div (int 5) (int 0) []).2).out
      = Outcome.fault Fault.divisionByZero := by
  constructor
  · have hg := eval_binCtor_ints BinOp.div a 0 h
    simpa [applyOp] using hg
  · decide

/-- Witness for C8 at a concrete input. -/
theorem div_by_zero_witness :
    (Node.eval 2 (div (int 5) (int 0) []).1 (div (int 5) (int 0) []).2).out
      = Outcome.fault Fault.divisionByZero :=
  (div_by_zero 5 [] (by decide) (by decide)).1

/-- C9: Display/debug duality.  Display formatting renders the scalar of an
`Int` node but faults unconditionally on a node that is still a thunk
reference; debug formatting never faults and never forces — it is a pure
reader producing a string, rendering a pending cell as `#[UNEVALED]` and a
done cell as `#[…]` around the inner node's debug form, and on a well-formed
heap it succeeds on every valid node with fuel two. -/
theorem display_debug (a : Nat) (h : Heap) (f : Nat) (bt : BinThunk) (v m : Node) (i : Int) :
    displayNode (Node.Int i) h = Except.ok (toString i)
    ∧ displayNode (Node.ThunkRef a) h = Except.error (Fault.displayThunk a)
    ∧ (look h a = some (Thunk.UThunk bt) →
        debugNode (f + 1) (Node.ThunkRef a) h = some "#[UNEVALED]")
    ∧ (look h a = some (Thunk.EThunk v) →
        debugNode (f + 1) (Node.ThunkRef a) h
          = (debugNode f v h).map (fun s => "#[" ++ s ++ "]"))
    ∧ (WF h → validNode h m → ∃ s, debugNode 2 m h = some s) := by
  refine ⟨rfl, rfl, fun hu => ?_, fun he => ?_, fun hwf hv => ?_⟩
  · simp [debugNode, hu]
  · simp [debugNode, he]
  · cases m with
    | Int j => exact ⟨"Int(" ++ toString j ++ ")", rfl⟩
    | ThunkRef b =>
      obtain ⟨tc, ht⟩ := lt_length_look hv
      cases tc with
      | UThunk bt2 => exact ⟨"#[UNEVALED]", by simp [debugNode, ht]⟩
      | EThunk w =>
        obtain ⟨j, rfl⟩ := hwf b w ht
        exact ⟨"#[" ++ ("Int(" ++ toString j ++ ")") ++ "]", by simp [debugNode, ht]⟩

/-- Witness for C9 at a concrete input. -/
theorem display_debug_witness :
    debugNode 1 (Node.ThunkRef 0) [Thunk.UThunk ⟨BinOp.add, Node.Int 1, Node.Int 2⟩]
      = some "#[UNEVALED]" :=
  (display_debug 0 [Thunk.UThunk ⟨BinOp.add, Node.Int 1, Node.Int 2⟩] 0
    ⟨BinOp.add, Node.Int 1, Node.Int 2⟩ (Node.Int 0) (Node.Int 0) 0).2.2.1 (by decide)

/-- C10: Display faults on every thunk-reference node regardless of the
referenced cell's state — even when the cell is already done, displaying the
original handle still faults; only a node that is directly the `Int` variant
(such as the fresh value returned by `evaluate`) can be displayed.  The last
conjunct shows the concrete scenario: after forcing `add(int 2, int 3)`, the
original handle still cannot be displayed. -/
theorem display_ignores_state (a : Nat) (h : Heap) (i : Int) :
    displayNode (Node.ThunkRef a) h = Except.error (Fault.displayThunk a)
    ∧ (look h a = some (Thunk.EThunk (Node.Int i)) →
        displayNode (Node.ThunkRef a) h = Except.error (Fault.displayThunk a))
    ∧ displayNode (Node.Int i) h = Except.ok (toString i)
    ∧ displayNode (add (int 2) (int 3) []).1
        (Node.eval 2 (add (int 2) (int 3) []).1 (add (int 2) (int 3) []).2).heap
        = Except.error (Fault.displayThunk 0)
    ∧ displayNode (Node.Int 5)
        (Node.eval 2 (add (int 2) (int 3) []).1 (add (int 2) (int 3) []).2).heap
        = Except.ok "5" :=
  ⟨rfl, fun _ => rfl, rfl, rfl, rfl⟩

/-- Witness for C10 at a concrete input: the referenced cell is done, display
still faults. -/
theorem display_ignores_state_witness :
    displayNode (Node.ThunkRef 0) [Thunk.EThunk (Node.Int 5)]
      = Except.error (Fault.displayThunk 0) :=
  (display_ignores_state 0 [Thunk.EThunk (Node.Int 5)] 5).2.1 (by decide)

end Builtins
